import Mathlib

set_option maxHeartbeats 1000000

/-!
Shallow embedding of the document-assembly logic of `src/design_doc_logic.py`
(repository `jira-design-doc`).

The program builds a Word document in memory: a title block, a page break,
and then one block per entry of the fixed section catalog `SECTIONS`.
We model the visible structure of the produced document as a list of
`DocItem`s, in the exact order the python code adds them with
`add_heading` / `add_paragraph` / `add_page_break` / `add_picture`.
The byte serialization performed by `python-docx` (`doc.save`) is opaque
and not modelled; every claim is about the visible structure.

Python string primitives used by the source (`str.split("\n\n")`,
`str.strip()`, `str.count(".")`, `str.find`, `str.rfind`, slicing,
`dict.get(k, "")`) are embedded as executable functions over `List Char`
and association lists with matching semantics.
-/

/-- Items added to the python-docx `Document`, in order of addition.
`heading` carries the `level` argument of `add_heading`; `picture` carries
the display width of `add_picture` in EMU (`Inches(6.5) = 6.5 * 914400`). -/
inductive DocItem where
  | heading (text : String) (level : Nat)
  | paragraph (text : String)
  | pageBreak
  | picture (widthEmu : Nat)
  deriving DecidableEq

/-- A python dict from section title to body text, as an association list
with distinct keys (the result of `json.loads` on a JSON object). -/
abbrev ContentMap := List (String × String)

/-- Embeds `sections.get(section_title, "")` (line 193): the value of the
first matching key, defaulting to the empty string. -/
def getD (m : ContentMap) (k : String) : String :=
  match m.find? (fun kv => kv.1 == k) with
  | some kv => kv.2
  | none => ""

/-- The whitespace predicate of python `str.strip()` restricted to the
ASCII whitespace characters. -/
def wsChar (c : Char) : Bool :=
  c = ' ' || c = '\t' || c = '\n' || c = '\r' || c = '\x0b' || c = '\x0c'

/-- Embeds python `str.strip()` on the character list: drop whitespace
from the front, then from the back. -/
def stripL (l : List Char) : List Char :=
  ((l.dropWhile wsChar).reverse.dropWhile wsChar).reverse

/-- Embeds python `body.split("\n\n")` (line 197): non-overlapping
left-to-right splitting on the two-character separator; the empty string
splits to one empty chunk, and separators at the ends produce empty chunks,
exactly as in python. -/
def splitChars : List Char → List (List Char)
  | [] => [[]]
  | [c] => [[c]]
  | a :: b :: rest =>
    if a = '\n' && b = '\n' then
      [] :: splitChars rest
    else
      match splitChars (b :: rest) with
      | h :: t => (a :: h) :: t
      | [] => [[a]]

/-- Embeds the paragraph loop of lines 197-199: for each chunk of
`body.split("\n\n")`, if `para.strip()` is truthy (non-empty) add
`para.strip()` as a paragraph. -/
def bodyParas (body : String) : List String :=
  (splitChars body.toList).filterMap (fun para =>
    if stripL para = [] then none else some (String.mk (stripL para)))

/-- Embeds lines 193-199 as the list of body-paragraph texts emitted for
one section title: `body = sections.get(title, "")`; `if not body: continue`
(the empty string is falsy); otherwise split, strip and filter. -/
def sectionBody (sections : ContentMap) (title : String) : List String :=
  let body := getD sections title
  if body = "" then [] else bodyParas body

/-- Embeds `section_title.count(".")` (line 184): the number of occurrences
of the one-character substring `"."`, which is the number of `'.'`
characters of the title. -/
def dotCount (s : String) : Nat :=
  s.toList.count '.'

/-- Embeds `heading_level = 1 if section_title.count(".") == 1 else 2`
(line 184). -/
def headingLevel (title : String) : Nat :=
  if dotCount title = 1 then 1 else 2

/-- The `width=Inches(6.5)` argument of `add_picture` (line 190) in EMU:
6.5 * 914400. -/
def DIAGRAM_WIDTH_EMU : Nat := 5943600

/-- Embeds one iteration of the section loop, lines 183-199: the heading
(level from the dot-count rule), then, only for the section titled
`"2.3 Architectural Diagram"`, the fixed caption paragraph, the embedded
picture at 6.5 inches and an empty spacing paragraph, then the body
paragraphs. -/
def renderSection (sections : ContentMap) (title : String) : List DocItem :=
  DocItem.heading title (headingLevel title) ::
    ((if title = "2.3 Architectural Diagram" then
        [DocItem.paragraph "Diagram (auto-generated):",
         DocItem.picture DIAGRAM_WIDTH_EMU,
         DocItem.paragraph ""]
      else []) ++ (sectionBody sections title).map DocItem.paragraph)

/-- Embeds the loop `for section_title in SECTIONS` (lines 183-199),
abstracted over the iterated list so that properties can be stated for an
arbitrary catalog; the source instantiates it with the fixed `SECTIONS`. -/
def assembleSections (sections : ContentMap) (catalog : List String) : List DocItem :=
  (catalog.map (renderSection sections)).flatten

/-- Embeds lines 175-180: the title heading (level 0), the four metadata
paragraphs in source order, and the page break. `today` is the string
produced by `date.today().isoformat()` on line 178, passed explicitly here
because the shallow embedding is pure. -/
def titleBlock (project_name version today prepared_by : String) : List DocItem :=
  [DocItem.heading "Solution Design Document" 0,
   DocItem.paragraph ("Project Name: " ++ project_name),
   DocItem.paragraph ("Version: " ++ version),
   DocItem.paragraph ("Date: " ++ today),
   DocItem.paragraph ("Prepared By: " ++ prepared_by),
   DocItem.pageBreak]

/-- The title block followed by the section blocks in catalog order
(lines 172-199, with the catalog a parameter). -/
def assembleDoc (today project_name version prepared_by : String)
    (sections : ContentMap) (catalog : List String) : List DocItem :=
  titleBlock project_name version today prepared_by ++ assembleSections sections catalog

/-- The fixed section catalog `SECTIONS` of lines 41-66. -/
def SECTIONS : List String :=
  ["1. Overview",
   "1.1 Audience",
   "1.2 Scope",
   "1.3 Shared Responsibility Matrix",
   "1.4 Software Development Life Cycle (SDLC)",
   "2. Solution Overview",
   "2.1 Business Requirements",
   "2.2 Solution Summary",
   "2.3 Architectural Diagram",
   "2.4 Solution Components",
   "2.5 Custom APIs & Connectors",
   "2.6 Data Storage & Dataverse",
   "2.7 Integrations",
   "2.8 Automation Scheduling",
   "2.9 Exception Handling in Power Automate Flows",
   "2.10 Data & Retention Policy",
   "3. Security",
   "3.1 Authentication & Authorization",
   "3.2 App Security",
   "3.3 Security in DevOps",
   "4. Deployment & DevOps",
   "5. Non-Functional Requirements",
   "6. Risks & Assumptions",
   "7. References & Appendix"]

/-- Embeds `generate_design_doc_bytes` (lines 159-204) at the level of
visible document structure. In the source the function takes
`(jira_text, project_name, version, prepared_by)`, obtains the content map
by calling `generate_all_sections(jira_text)` (an external LLM call, line
170) and reads the date from the wall clock (line 178); `sections` and
`today` are the results of those two internal effects, made explicit
parameters of the pure embedding. The returned docx bytes are modelled by
the ordered item list. -/
def generate_design_doc_bytes (today : String) (sections : ContentMap)
    (project_name version prepared_by : String) : List DocItem :=
  assembleDoc today project_name version prepared_by sections SECTIONS

/-- The headings of an item list, with their levels, in order. -/
def headingsOf (items : List DocItem) : List (String × Nat) :=
  items.filterMap (fun it =>
    match it with
    | DocItem.heading t l => some (t, l)
    | _ => none)

/-- The number of page breaks in an item list. -/
def pageBreakCount (items : List DocItem) : Nat :=
  items.countP (fun it =>
    match it with
    | DocItem.pageBreak => true
    | _ => false)

/-- The number of embedded images in an item list. -/
def imageCount (items : List DocItem) : Nat :=
  items.countP (fun it =>
    match it with
    | DocItem.picture _ => true
    | _ => false)

/-- Embeds `str.find(c)` for a one-character needle: the index of the first
occurrence, `-1` when absent (lines 21-22 use it with `"{"`). -/
def firstIdx (c : Char) : List Char → Int
  | [] => -1
  | x :: rest =>
    if x = c then 0
    else
      let r := firstIdx c rest
      if r = -1 then -1 else r + 1

/-- Embeds `str.rfind(c)` for a one-character needle: the index of the last
occurrence, `-1` when absent (line 22 uses it with `"}"`). -/
def lastIdx (c : Char) : List Char → Int
  | [] => -1
  | x :: rest =>
    let r := lastIdx c rest
    if r = -1 then (if x = c then 0 else -1) else r + 1

/-- Embeds `extract_json_from_text` (lines 13-26): empty input gives `""`;
otherwise take the first index of a brace-open and the last index of a
brace-close; if either is `-1` or the latter is not strictly after the
former give `""`; otherwise the slice `text[start:end + 1]`. -/
def extract_json_from_text (text : String) : String :=
  if text = "" then ""
  else
    let start := firstIdx '\x7b' text.toList
    let stop := lastIdx '\x7d' text.toList
    if start = -1 ∨ stop = -1 ∨ stop ≤ start then ""
    else String.mk ((text.toList.drop start.toNat).take (stop.toNat + 1 - start.toNat))

/-- Embeds the post-extraction check of `generate_all_sections`
(lines 109-115): if the extracted string is empty, raise `ValueError`
(modelled as `Except.error` with the source's message); otherwise the
extracted JSON text is handed to `json.loads`. The network call producing
`raw_text` and the JSON parsing itself are outside the embedding. -/
def generate_all_sections (raw_text : String) : Except String String :=
  let json_str := extract_json_from_text raw_text
  if json_str = "" then
    Except.error "Model did not return valid JSON. Try reducing input text or try again."
  else
    Except.ok json_str

/-! Helper lemmas about the item-list combinators. -/

lemma headingsOf_nil : headingsOf [] = [] := rfl

lemma headingsOf_cons_heading (t : String) (lv : Nat) (items : List DocItem) :
    headingsOf (DocItem.heading t lv :: items) = (t, lv) :: headingsOf items := rfl

lemma headingsOf_cons_paragraph (s : String) (items : List DocItem) :
    headingsOf (DocItem.paragraph s :: items) = headingsOf items := rfl

lemma headingsOf_cons_pageBreak (items : List DocItem) :
    headingsOf (DocItem.pageBreak :: items) = headingsOf items := rfl

lemma headingsOf_cons_picture (w : Nat) (items : List DocItem) :
    headingsOf (DocItem.picture w :: items) = headingsOf items := rfl

lemma headingsOf_append (a b : List DocItem) :
    headingsOf (a ++ b) = headingsOf a ++ headingsOf b := by
  simp [headingsOf]

lemma headingsOf_map_paragraph (l : List String) :
    headingsOf (l.map DocItem.paragraph) = [] := by
  induction l with
  | nil => rfl
  | cons a l ih => rw [List.map_cons, headingsOf_cons_paragraph, ih]

lemma headingsOf_renderSection (M : ContentMap) (t : String) :
    headingsOf (renderSection M t) = [(t, headingLevel t)] := by
  unfold renderSection
  by_cases h : t = "2.3 Architectural Diagram" <;>
    simp only [h, if_pos, if_neg, if_true, if_false, headingsOf_cons_heading,
      headingsOf_append, headingsOf_cons_paragraph, headingsOf_cons_picture,
      headingsOf_map_paragraph, headingsOf_nil, List.nil_append, List.append_nil]

lemma headingsOf_assembleSections (M : ContentMap) (C : List String) :
    headingsOf (assembleSections M C) = C.map (fun t => (t, headingLevel t)) := by
  induction C with
  | nil => rfl
  | cons t C ih =>
    simp only [assembleSections, List.map_cons, List.flatten_cons, headingsOf_append,
      headingsOf_renderSection] at ih ⊢
    simp [ih]

lemma pageBreakCount_nil : pageBreakCount [] = 0 := rfl

lemma pageBreakCount_append (a b : List DocItem) :
    pageBreakCount (a ++ b) = pageBreakCount a + pageBreakCount b := by
  simp [pageBreakCount]

lemma pageBreakCount_cons_heading (t : String) (lv : Nat) (items : List DocItem) :
    pageBreakCount (DocItem.heading t lv :: items) = pageBreakCount items := by
  simp [pageBreakCount, List.countP_cons]

lemma pageBreakCount_cons_paragraph (s : String) (items : List DocItem) :
    pageBreakCount (DocItem.paragraph s :: items) = pageBreakCount items := by
  simp [pageBreakCount, List.countP_cons]

lemma pageBreakCount_cons_picture (w : Nat) (items : List DocItem) :
    pageBreakCount (DocItem.picture w :: items) = pageBreakCount items := by
  simp [pageBreakCount, List.countP_cons]

lemma pageBreakCount_map_paragraph (l : List String) :
    pageBreakCount (l.map DocItem.paragraph) = 0 := by
  induction l with
  | nil => rfl
  | cons a l ih => rw [List.map_cons, pageBreakCount_cons_paragraph, ih]

lemma pageBreakCount_renderSection (M : ContentMap) (t : String) :
    pageBreakCount (renderSection M t) = 0 := by
  unfold renderSection
  by_cases h : t = "2.3 Architectural Diagram" <;>
    simp only [h, if_true, if_false, pageBreakCount_cons_heading, pageBreakCount_append,
      pageBreakCount_cons_paragraph, pageBreakCount_cons_picture,
      pageBreakCount_map_paragraph, pageBreakCount_nil, List.nil_append, Nat.add_zero]

lemma pageBreakCount_assembleSections (M : ContentMap) (C : List String) :
    pageBreakCount (assembleSections M C) = 0 := by
  induction C with
  | nil => rfl
  | cons t C ih =>
    simp only [assembleSections, List.map_cons, List.flatten_cons] at ih ⊢
    rw [pageBreakCount_append, pageBreakCount_renderSection, ih]

lemma imageCount_nil : imageCount [] = 0 := rfl

lemma imageCount_append (a b : List DocItem) :
    imageCount (a ++ b) = imageCount a + imageCount b := by
  simp [imageCount]

lemma imageCount_cons_heading (t : String) (lv : Nat) (items : List DocItem) :
    imageCount (DocItem.heading t lv :: items) = imageCount items := by
  simp [imageCount, List.countP_cons]

lemma imageCount_cons_paragraph (s : String) (items : List DocItem) :
    imageCount (DocItem.paragraph s :: items) = imageCount items := by
  simp [imageCount, List.countP_cons]

lemma imageCount_cons_picture (w : Nat) (items : List DocItem) :
    imageCount (DocItem.picture w :: items) = imageCount items + 1 := by
  simp [imageCount, List.countP_cons]

lemma imageCount_map_paragraph (l : List String) :
    imageCount (l.map DocItem.paragraph) = 0 := by
  induction l with
  | nil => rfl
  | cons a l ih => rw [List.map_cons, imageCount_cons_paragraph, ih]

lemma imageCount_renderSection (M : ContentMap) (t : String) :
    imageCount (renderSection M t) =
      if t = "2.3 Architectural Diagram" then 1 else 0 := by
  unfold renderSection
  by_cases h : t = "2.3 Architectural Diagram" <;>
    simp only [h, if_true, if_false, imageCount_cons_heading, imageCount_append,
      imageCount_cons_paragraph, imageCount_cons_picture, imageCount_map_paragraph,
      imageCount_nil, List.nil_append, Nat.add_zero, Nat.zero_add]

/-! Helper lemmas about `splitChars`, `stripL` and `getD`. -/

lemma splitChars_ne_nil (l : List Char) : splitChars l ≠ [] := by
  induction l using splitChars.induct with
  | case1 => simp [splitChars]
  | case2 c => simp [splitChars]
  | case3 a b rest h ih => simp [splitChars, h]
  | case4 a b rest h h' t heq ih => simp [splitChars, h, heq]
  | case5 a b rest h heq ih => exact absurd heq ih

lemma mem_of_mem_splitChars (l : List Char) :
    ∀ m ∈ splitChars l, ∀ c ∈ m, c ∈ l := by
  induction l using splitChars.induct with
  | case1 => intro m hm c hc; simp [splitChars] at hm; simp [hm] at hc
  | case2 x =>
    intro m hm c hc
    simp [splitChars] at hm
    subst hm
    simpa using hc
  | case3 a b rest h ih =>
    intro m hm c hc
    rw [show splitChars (a :: b :: rest) = [] :: splitChars rest by simp [splitChars, h]] at hm
    rcases List.mem_cons.mp hm with h1 | h1
    · simp [h1] at hc
    · have := ih m h1 c hc
      simp [this]
  | case4 a b rest h h' t heq ih =>
    intro m hm c hc
    rw [show splitChars (a :: b :: rest) = (a :: h') :: t by simp [splitChars, h, heq]] at hm
    rcases List.mem_cons.mp hm with h1 | h1
    · subst h1
      rcases List.mem_cons.mp hc with h2 | h2
      · simp [h2]
      · have := ih h' (heq ▸ List.mem_cons_self h' t) c h2
        exact List.mem_cons_of_mem a this
    · have := ih m (heq ▸ List.mem_cons.mpr (Or.inr h1)) c hc
      exact List.mem_cons_of_mem a this
  | case5 a b rest h heq ih => exact absurd heq (splitChars_ne_nil (b :: rest))

lemma stripL_eq_nil_of_all_ws (l : List Char) (hws : ∀ c ∈ l, wsChar c = true) :
    stripL l = [] := by
  have h1 : l.dropWhile wsChar = [] := List.dropWhile_eq_nil_iff.mpr hws
  simp [stripL, h1]

lemma getD_cons_ne (k v s : String) (M : ContentMap) (h : s ≠ k) :
    getD ((k, v) :: M) s = getD M s := by
  have hk : (k == s) = false := beq_eq_false_iff_ne.mpr (fun e => h e.symm)
  simp [getD, List.find?_cons, hk]

lemma renderSection_congr (M₁ M₂ : ContentMap) (t : String)
    (h : getD M₁ t = getD M₂ t) : renderSection M₁ t = renderSection M₂ t := by
  simp [renderSection, sectionBody, h]

/-! Claim theorems. -/

/-- C1: for every metadata record (project name, version, date string,
prepared-by), content map `M` and catalog `C`, the assembled document is the
title block (title heading, then the four metadata paragraphs in the fixed
order project name, version, date, prepared-by), one page break, and then
the section blocks; the output contains exactly one page break, its section
headings are exactly `C` in order with no title reordered, merged or
dropped; and for the empty catalog the output is only the metadata block
and the page break. -/
theorem C1_document_structure (today pn v pb : String) (M : ContentMap) (C : List String) :
    assembleDoc today pn v pb M C =
      [DocItem.heading "Solution Design Document" 0,
       DocItem.paragraph ("Project Name: " ++ pn),
       DocItem.paragraph ("Version: " ++ v),
       DocItem.paragraph ("Date: " ++ today),
       DocItem.paragraph ("Prepared By: " ++ pb),
       DocItem.pageBreak] ++ assembleSections M C
    ∧ headingsOf (assembleSections M C) = C.map (fun t => (t, headingLevel t))
    ∧ pageBreakCount (assembleDoc today pn v pb M C) = 1
    ∧ (C = [] → assembleDoc today pn v pb M C =
        [DocItem.heading "Solution Design Document" 0,
         DocItem.paragraph ("Project Name: " ++ pn),
         DocItem.paragraph ("Version: " ++ v),
         DocItem.paragraph ("Date: " ++ today),
         DocItem.paragraph ("Prepared By: " ++ pb),
         DocItem.pageBreak]) := by
  refine ⟨rfl, headingsOf_assembleSections M C, ?_, ?_⟩
  · unfold assembleDoc
    rw [pageBreakCount_append, pageBreakCount_assembleSections]
    simp [titleBlock, pageBreakCount, List.countP_cons]
  · intro hC
    subst hC
    simp [assembleDoc, assembleSections, titleBlock]

/-- C1 witness: the structure theorem applied at a concrete metadata record
and the empty catalog. -/
theorem C1_document_structure_witness :
    assembleDoc "2025-01-01" "Proj" "1.0" "Alice" [] [] =
      [DocItem.heading "Solution Design Document" 0,
       DocItem.paragraph ("Project Name: " ++ "Proj"),
       DocItem.paragraph ("Version: " ++ "1.0"),
       DocItem.paragraph ("Date: " ++ "2025-01-01"),
       DocItem.paragraph ("Prepared By: " ++ "Alice"),
       DocItem.pageBreak] :=
  (C1_document_structure "2025-01-01" "Proj" "1.0" "Alice" [] []).2.2.2 rfl

/-- C2: the heading level emitted for a section title is determined solely
by the number of `'.'` characters in the title: exactly one dot gives a
top-level (level 1) heading, any other count gives a level 2 heading. -/
theorem C2_heading_level_rule (t : String) :
    (dotCount t = 1 → headingLevel t = 1)
    ∧ (dotCount t ≠ 1 → headingLevel t = 2)
    ∧ ∀ t' : String, dotCount t' = dotCount t → headingLevel t' = headingLevel t := by
  refine ⟨fun h => by simp [headingLevel, h],
          fun h => by simp [headingLevel, h],
          fun t' h => by simp [headingLevel, h]⟩

/-- C2 witness: the rule applied to a one-dot title and a zero-dot title. -/
theorem C2_heading_level_rule_witness :
    headingLevel "1. Overview" = 1 ∧ headingLevel "Overview" = 2 :=
  ⟨(C2_heading_level_rule "1. Overview").1 (by decide),
   (C2_heading_level_rule "Overview").2.1 (by decide)⟩

/-- The catalog of the spec's Scenario A. -/
def scenarioCatalog : List String := ["1. Overview", "1.1 Audience"]

/-- The content map of the spec's Scenario A. -/
def scenarioContent : ContentMap :=
  [("1. Overview", "Intro para.\n\nSecond para."), ("1.1 Audience", "")]

/-- C3 counterexample: in Scenario A the title `"1.1 Audience"` contains
exactly one `'.'`, so the code emits it at the top level (level 1), not at
the sub level (level 2) the claim states: the heading list of the output is
not (top, sub). -/
theorem C3_scenarioA_counterexample :
    dotCount "1.1 Audience" = 1 ∧ headingLevel "1.1 Audience" = 1 ∧
    headingsOf (assembleSections scenarioContent scenarioCatalog) ≠
      [("1. Overview", 1), ("1.1 Audience", 2)] := by decide

/-- C3 amended: for the Scenario A inputs the output has exactly 2 headings
whose depths are (top-level, top-level) — `"1.1 Audience"` has exactly one
dot, so the dot-count rule makes it top-level — the first section has
exactly the 2 body paragraphs and the second section has 0. -/
theorem C3_scenarioA_amended :
    headingsOf (assembleSections scenarioContent scenarioCatalog) =
      [("1. Overview", 1), ("1.1 Audience", 1)]
    ∧ sectionBody scenarioContent "1. Overview" = ["Intro para.", "Second para."]
    ∧ sectionBody scenarioContent "1.1 Audience" = [] := by decide

/-- C4: for every content map, the section titled
`"2.3 Architectural Diagram"` renders as its heading, the fixed caption
line, the image at the fixed 6.5-inch width, the spacing paragraph, and
then its body paragraphs exactly as any other section; it contains exactly
one embedded image regardless of the content map, and no other section
contains an image. -/
theorem C4_diagram_section (M : ContentMap) :
    renderSection M "2.3 Architectural Diagram" =
      DocItem.heading "2.3 Architectural Diagram" (headingLevel "2.3 Architectural Diagram")
        :: DocItem.paragraph "Diagram (auto-generated):"
        :: DocItem.picture DIAGRAM_WIDTH_EMU
        :: DocItem.paragraph ""
        :: (sectionBody M "2.3 Architectural Diagram").map DocItem.paragraph
    ∧ imageCount (renderSection M "2.3 Architectural Diagram") = 1
    ∧ ∀ t : String, t ≠ "2.3 Architectural Diagram" → imageCount (renderSection M t) = 0 := by
  refine ⟨by simp [renderSection], ?_, ?_⟩
  · rw [imageCount_renderSection]
    simp
  · intro t ht
    rw [imageCount_renderSection, if_neg ht]

/-- C4 witness: with the empty content map the diagram section holds its one
image and a different section holds none. -/
theorem C4_diagram_section_witness :
    imageCount (renderSection [] "2.3 Architectural Diagram") = 1
    ∧ imageCount (renderSection [] "1. Overview") = 0 :=
  ⟨(C4_diagram_section []).2.1,
   (C4_diagram_section []).2.2 "1. Overview" (by decide)⟩

/-- C5: a title whose content-map entry is missing or empty still renders
(with zero body paragraphs, and for a non-diagram title as a bare heading),
its heading still appears in the output whenever the title is in the
catalog; and a content-map key that is not a catalog title leaves the
output unaffected. -/
theorem C5_graceful_missing (M : ContentMap) (C : List String) (t k v : String) :
    (getD M t = "" → sectionBody M t = [])
    ∧ (getD M t = "" → t ≠ "2.3 Architectural Diagram" →
        renderSection M t = [DocItem.heading t (headingLevel t)])
    ∧ (t ∈ C → (t, headingLevel t) ∈ headingsOf (assembleSections M C))
    ∧ (k ∉ C → assembleSections ((k, v) :: M) C = assembleSections M C) := by
  refine ⟨?_, ?_, ?_, ?_⟩
  · intro h
    simp [sectionBody, h]
  · intro h hne
    simp [renderSection, hne, sectionBody, h]
  · intro ht
    rw [headingsOf_assembleSections]
    exact List.mem_map.mpr ⟨t, ht, rfl⟩
  · intro hk
    unfold assembleSections
    congr 1
    apply List.map_congr_left
    intro s hs
    exact renderSection_congr _ _ s (getD_cons_ne k v s M (fun e => hk (e ▸ hs)))

/-- C5 witness: the theorem applied with content map holding only the
unknown key of the spec's Scenario C and the one-element catalog. -/
theorem C5_graceful_missing_witness :
    sectionBody [("9. Unknown", "x")] "1. Overview" = []
    ∧ renderSection [("9. Unknown", "x")] "1. Overview" =
        [DocItem.heading "1. Overview" (headingLevel "1. Overview")]
    ∧ ("1. Overview", headingLevel "1. Overview") ∈
        headingsOf (assembleSections [("9. Unknown", "x")] ["1. Overview"])
    ∧ assembleSections (("9. Unknown", "x") :: []) ["1. Overview"] =
        assembleSections [] ["1. Overview"] :=
  ⟨(C5_graceful_missing [("9. Unknown", "x")] ["1. Overview"] "1. Overview" "9. Unknown" "x").1
      (by decide),
   (C5_graceful_missing [("9. Unknown", "x")] ["1. Overview"] "1. Overview" "9. Unknown" "x").2.1
      (by decide) (by decide),
   (C5_graceful_missing [("9. Unknown", "x")] ["1. Overview"] "1. Overview" "9. Unknown" "x").2.2.1
      (by decide),
   (C5_graceful_missing [] ["1. Overview"] "1. Overview" "9. Unknown" "x").2.2.2
      (by decide)⟩

/-- C10: a body string that is non-empty but all whitespace takes the
truthy (non-empty) branch of the section loop, yet every split chunk strips
to the empty string, so zero body paragraphs are emitted. -/
theorem C10_whitespace_only_body (M : ContentMap) (t body : String)
    (h1 : getD M t = body) (h2 : body ≠ "")
    (h3 : ∀ c ∈ body.toList, wsChar c = true) :
    sectionBody M t = bodyParas body ∧ bodyParas body = [] := by
  constructor
  · rw [sectionBody, h1, if_neg h2]
  · unfold bodyParas
    rw [List.filterMap_eq_nil_iff]
    intro m hm
    have hws : ∀ c ∈ m, wsChar c = true :=
      fun c hc => h3 c (mem_of_mem_splitChars body.toList m hm c hc)
    simp [stripL_eq_nil_of_all_ws m hws]

/-- C10 witness: the theorem applied to a whitespace-only body. -/
theorem C10_whitespace_only_body_witness :
    sectionBody [("1. Overview", " \n ")] "1. Overview" = bodyParas " \n "
    ∧ bodyParas " \n " = [] :=
  C10_whitespace_only_body [("1. Overview", " \n ")] "1. Overview" " \n "
    (by decide) (by decide) (by decide)

/-! Support for C6: the filterMap of the source loop equals the
split-then-strip-then-filter description. -/

lemma mk_eq_empty_iff (l : List Char) : String.mk l = "" ↔ l = [] := by
  constructor
  · intro h
    have := congrArg String.data h
    simpa using this
  · intro h
    subst h
    rfl

lemma filterMap_strip_eq_map_filter (chunks : List (List Char)) :
    chunks.filterMap (fun para =>
      if stripL para = [] then none else some (String.mk (stripL para)))
    = (chunks.map (fun para => String.mk (stripL para))).filter (fun s => s != "") := by
  induction chunks with
  | nil => rfl
  | cons p l ih =>
    by_cases h : stripL p = []
    · have he : (String.mk (stripL p) != "") = false := by
        simp [h, mk_eq_empty_iff]
      simp only [List.filterMap_cons, List.map_cons, List.filter_cons, h, if_pos, he,
        Bool.false_eq_true, if_false, ih]
      simp
    · have he : (String.mk (stripL p) != "") = true := by
        simp [bne_iff_ne, mk_eq_empty_iff, h]
      simp only [List.filterMap_cons, List.map_cons, List.filter_cons, h, he, if_true, ih]
      simp [h]

/-- C6: for a non-empty body, the emitted paragraphs are exactly the chunks
obtained by splitting the body on the double-newline boundary, each trimmed
of surrounding whitespace, with chunks empty after trimming omitted and the
rest kept in their original relative order, one paragraph per chunk. -/
theorem C6_paragraph_split (M : ContentMap) (t : String) (h : getD M t ≠ "") :
    sectionBody M t =
      ((splitChars (getD M t).toList).map (fun chunk => String.mk (stripL chunk))).filter
        (fun s => s != "") := by
  simp only [sectionBody, if_neg h, bodyParas]
  exact filterMap_strip_eq_map_filter _

/-- C6 witness: the theorem applied to a concrete two-paragraph body with
an extra empty chunk and surrounding whitespace. -/
theorem C6_paragraph_split_witness :
    sectionBody [("1. Overview", " A\n\n\n\nB ")] "1. Overview" =
      ((splitChars (getD [("1. Overview", " A\n\n\n\nB ")] "1. Overview").toList).map
        (fun chunk => String.mk (stripL chunk))).filter (fun s => s != "") :=
  C6_paragraph_split [("1. Overview", " A\n\n\n\nB ")] "1. Overview" (by decide)

/-! Support for C7: idempotence of split-strip-filter. -/

/-- Whether the two-character separator occurs in the character list. -/
def hasDN : List Char → Bool
  | [] => false
  | [_] => false
  | a :: b :: rest => (a = '\n' && b = '\n') || hasDN (b :: rest)

lemma hasDN_iff (l : List Char) :
    hasDN l = true ↔ ∃ x y : List Char, l = x ++ '\n' :: '\n' :: y := by
  induction l using hasDN.induct with
  | case1 =>
    simp only [hasDN]
    constructor
    · intro h
      cases h
    · rintro ⟨x, y, hxy⟩
      exact absurd hxy (by simp)
  | case2 c =>
    simp only [hasDN]
    constructor
    · intro h
      cases h
    · rintro ⟨x, y, hxy⟩
      rcases x with _ | ⟨a, _ | ⟨b, x⟩⟩ <;> simp_all
  | case3 a b rest ih =>
    simp only [hasDN, Bool.or_eq_true, Bool.and_eq_true, decide_eq_true_eq]
    constructor
    · rintro (⟨ha, hb⟩ | h)
      · exact ⟨[], rest, by simp [ha, hb]⟩
      · rcases (ih.mp (by simpa using h)) with ⟨x, y, hxy⟩
        exact ⟨a :: x, y, by simp [hxy]⟩
    · rintro ⟨x, y, hxy⟩
      rcases x with _ | ⟨c, x⟩
      · simp at hxy
        exact Or.inl ⟨hxy.1, hxy.2.1⟩
      · simp only [List.cons_append, List.cons.injEq] at hxy
        exact Or.inr (by
          rw [ih]
          exact ⟨x, y, hxy.2⟩)

lemma hasDN_reverse (l : List Char) : hasDN l.reverse = hasDN l := by
  have key : ∀ m : List Char, hasDN m = true → hasDN m.reverse = true := by
    intro m hm
    rcases (hasDN_iff m).mp hm with ⟨x, y, hxy⟩
    rw [hasDN_iff]
    exact ⟨y.reverse, x.reverse, by simp [hxy]⟩
  cases h1 : hasDN l with
  | true => simpa using key l h1
  | false =>
    cases h2 : hasDN l.reverse with
    | false => rfl
    | true =>
      have := key l.reverse h2
      rw [List.reverse_reverse] at this
      rw [this] at h1
      cases h1

lemma hasDN_of_append_right (x y : List Char) (h : hasDN (x ++ y) = false) :
    hasDN y = false := by
  cases hy : hasDN y with
  | false => rfl
  | true =>
    rcases (hasDN_iff y).mp hy with ⟨a, b, hab⟩
    have : hasDN (x ++ y) = true := by
      rw [hasDN_iff]
      exact ⟨x ++ a, b, by simp [hab]⟩
    rw [this] at h
    cases h

lemma hasDN_dropWhile (p : Char → Bool) (l : List Char) (h : hasDN l = false) :
    hasDN (l.dropWhile p) = false := by
  induction l with
  | nil => simpa using h
  | cons a t ih =>
    have ht : hasDN t = false := by
      rcases t with _ | ⟨b, rest⟩
      · rfl
      · have := h
        simp only [hasDN, Bool.or_eq_false_iff] at this
        exact this.2
    rw [List.dropWhile_cons]
    by_cases hp : p a = true
    · simp only [hp, if_true]
      exact ih ht
    · simp only [hp, if_false]
      exact h

lemma hasDN_stripL (l : List Char) (h : hasDN l = false) :
    hasDN (stripL l) = false := by
  unfold stripL
  rw [hasDN_reverse]
  apply hasDN_dropWhile
  rw [hasDN_reverse]
  exact hasDN_dropWhile wsChar l h

lemma splitChars_of_noDN (l : List Char) (h : hasDN l = false) :
    splitChars l = [l] := by
  induction l using splitChars.induct with
  | case1 => rfl
  | case2 c => rfl
  | case3 a b rest hnn ih =>
    exfalso
    have : hasDN (a :: b :: rest) = true := by
      simp only [hasDN, Bool.or_eq_true]
      exact Or.inl hnn
    rw [this] at h
    cases h
  | case4 a b rest hnn h' t heq ih =>
    have hbr : hasDN (b :: rest) = false := by
      have := h
      simp only [hasDN, Bool.or_eq_false_iff] at this
      exact this.2
    have : splitChars (b :: rest) = [b :: rest] := ih hbr
    rw [this] at heq
    cases heq
    simp [splitChars, hnn, this]
  | case5 a b rest hnn heq ih =>
    exact absurd heq (splitChars_ne_nil (b :: rest))

lemma head_splitChars (l h : List Char) (t : List (List Char))
    (heq : splitChars l = h :: t) (hne : h ≠ []) : h.head? = l.head? := by
  rcases l with _ | ⟨a, _ | ⟨b, rest⟩⟩
  · simp only [splitChars] at heq
    cases heq
    exact absurd rfl hne
  · simp only [splitChars] at heq
    cases heq
    rfl
  · by_cases hnn : (a = '\n' && b = '\n') = true
    · rw [show splitChars (a :: b :: rest) = [] :: splitChars rest by
        simp [splitChars, hnn]] at heq
      cases heq
      exact absurd rfl hne
    · rcases h2 : splitChars (b :: rest) with _ | ⟨h', t'⟩
      · exact absurd h2 (splitChars_ne_nil (b :: rest))
      · rw [show splitChars (a :: b :: rest) = (a :: h') :: t' by
          simp [splitChars, hnn, h2]] at heq
        cases heq
        rfl

lemma hasDN_of_mem_splitChars (l : List Char) :
    ∀ m ∈ splitChars l, hasDN m = false := by
  induction l using splitChars.induct with
  | case1 =>
    intro m hm
    simp only [splitChars, List.mem_singleton] at hm
    simp [hm, hasDN]
  | case2 c =>
    intro m hm
    simp only [splitChars, List.mem_singleton] at hm
    simp [hm, hasDN]
  | case3 a b rest hnn ih =>
    intro m hm
    rw [show splitChars (a :: b :: rest) = [] :: splitChars rest by
      simp [splitChars, hnn]] at hm
    rcases List.mem_cons.mp hm with h1 | h1
    · simp [h1, hasDN]
    · exact ih m h1
  | case4 a b rest hnn h' t heq ih =>
    intro m hm
    rw [show splitChars (a :: b :: rest) = (a :: h') :: t by
      simp [splitChars, hnn, heq]] at hm
    rcases List.mem_cons.mp hm with h1 | h1
    · subst h1
      have hh' : hasDN h' = false := ih h' (heq ▸ List.mem_cons_self h' t)
      rcases h3 : h' with _ | ⟨x, h''⟩
      · simp [hasDN]
      · have hx : h'.head? = some b := by
          rw [head_splitChars (b :: rest) h' t heq (by simp [h3])]
          rfl
        rw [h3] at hx
        simp only [List.head?_cons, Option.some.injEq] at hx
        subst hx
        simp only [hasDN, Bool.or_eq_false_iff]
        constructor
        · simpa using hnn
        · rw [h3] at hh'
          exact hh'
    · exact ih m (heq ▸ List.mem_cons.mpr (Or.inr h1))
  | case5 a b rest hnn heq ih =>
    exact absurd heq (splitChars_ne_nil (b :: rest))

lemma splitChars_append_sep (b : List Char) :
    ∀ a : List Char, hasDN a = false → a.getLast? ≠ some '\n' →
      splitChars (a ++ '\n' :: '\n' :: b) = a :: splitChars b := by
  intro a
  induction a using hasDN.induct with
  | case1 =>
    intro _ _
    simp [splitChars]
  | case2 c =>
    intro _ hlast
    have hc : c ≠ '\n' := by
      intro h
      exact hlast (by simp [h])
    have h1 : splitChars ('\n' :: '\n' :: b) = [] :: splitChars b := by
      simp [splitChars]
    simp only [List.cons_append, List.nil_append]
    rw [show splitChars (c :: '\n' :: '\n' :: b) =
        match splitChars ('\n' :: '\n' :: b) with
        | h :: t => (c :: h) :: t
        | [] => [[c]] by simp [splitChars, hc]]
    rw [h1]
  | case3 x y a' ih =>
    intro hdn hlast
    have hxy : ¬(x = '\n' ∧ y = '\n') := by
      intro ⟨hx, hy⟩
      have : hasDN (x :: y :: a') = true := by
        simp [hasDN, hx, hy]
      rw [this] at hdn
      cases hdn
    have hdn' : hasDN (y :: a') = false := by
      have := hdn
      simp only [hasDN, Bool.or_eq_false_iff] at this
      exact this.2
    have hlast' : (y :: a').getLast? ≠ some '\n' := by
      rwa [List.getLast?_cons_cons] at hlast
    have hIH := ih hdn' hlast'
    have hnn : ((x = '\n' : Bool) && (y = '\n' : Bool)) ≠ true := by
      intro hcontra
      exact hxy (by simpa using hcontra)
    simp only [List.cons_append]
    rw [show splitChars (x :: y :: (a' ++ '\n' :: '\n' :: b)) =
        match splitChars (y :: (a' ++ '\n' :: '\n' :: b)) with
        | h :: t => (x :: h) :: t
        | [] => [[x]] by simp [splitChars, hnn]]
    rw [List.cons_append] at hIH
    rw [hIH]

lemma head?_dropWhile_false (p : Char → Bool) (l : List Char) (c : Char)
    (h : (l.dropWhile p).head? = some c) : p c = false := by
  have := List.head?_dropWhile_not p l
  rw [h] at this
  exact this

lemma dropWhile_eq_self_of_head (p : Char → Bool) (l : List Char)
    (h : ∀ c, l.head? = some c → p c = false) :
    l.dropWhile p = l := by
  cases l with
  | nil => rfl
  | cons a t => exact List.dropWhile_cons_of_neg (by simp [h a rfl])

lemma getLast?_dropWhile (p : Char → Bool) :
    ∀ l : List Char, l.dropWhile p ≠ [] → (l.dropWhile p).getLast? = l.getLast? := by
  intro l
  induction l with
  | nil => intro h; simp at h
  | cons a t ih =>
    intro h
    rw [List.dropWhile_cons] at h ⊢
    by_cases hp : p a = true
    · rw [if_pos hp] at h ⊢
      rw [ih h]
      cases t with
      | nil => simp at h
      | cons b t' => simp [List.getLast?_cons_cons]
    · rw [if_neg hp] at h ⊢

lemma getLast?_stripL (l : List Char) (c : Char)
    (h : (stripL l).getLast? = some c) : wsChar c = false := by
  unfold stripL at h
  rw [List.getLast?_reverse] at h
  exact head?_dropWhile_false wsChar _ c h

lemma head?_stripL (l : List Char) (c : Char)
    (h : (stripL l).head? = some c) : wsChar c = false := by
  unfold stripL at h
  rw [List.head?_reverse] at h
  have hne : ((l.dropWhile wsChar).reverse).dropWhile wsChar ≠ [] := by
    intro h0
    rw [h0] at h
    cases h
  rw [getLast?_dropWhile wsChar _ hne] at h
  rw [List.getLast?_reverse] at h
  exact head?_dropWhile_false wsChar l c h

lemma stripL_idem (l : List Char) : stripL (stripL l) = stripL l := by
  rcases h0 : stripL l with _ | ⟨a, t⟩
  · rfl
  · have hhead : wsChar a = false := head?_stripL l a (by rw [h0]; rfl)
    have hlast : ∃ c, (a :: t).getLast? = some c ∧ wsChar c = false := by
      rcases hg : (a :: t).getLast? with _ | c
      · simp at hg
      · exact ⟨c, rfl, getLast?_stripL l c (by rw [h0]; exact hg)⟩
    rcases hlast with ⟨c, hg, hcw⟩
    unfold stripL
    rw [show (a :: t).dropWhile wsChar = a :: t from
      List.dropWhile_cons_of_neg (by simp [hhead])]
    have h2 : (a :: t).reverse.dropWhile wsChar = (a :: t).reverse := by
      apply dropWhile_eq_self_of_head
      intro d hd
      rw [List.head?_reverse, hg] at hd
      injection hd with hd'
      rw [← hd']
      exact hcw
    rw [h2, List.reverse_reverse]

/-- The spec-side reconstruction of a body from its paragraph chunks: the
chunks joined by the double-newline boundary. -/
def joinChunks : List (List Char) → List Char
  | [] => []
  | [p] => p
  | p :: q :: rest => p ++ '\n' :: '\n' :: joinChunks (q :: rest)

/-- The spec-side reconstruction of a single body text from a paragraph
list: paragraphs joined by the double-newline boundary. -/
def joinParas (ps : List String) : String :=
  String.mk (joinChunks (ps.map String.toList))

lemma splitChars_joinChunks :
    ∀ ps : List (List Char), ps ≠ [] →
      (∀ p ∈ ps, hasDN p = false ∧ p.getLast? ≠ some '\n') →
      splitChars (joinChunks ps) = ps := by
  intro ps
  induction ps using joinChunks.induct with
  | case1 =>
    intro h _
    exact absurd rfl h
  | case2 p =>
    intro _ hp
    show splitChars (joinChunks [p]) = [p]
    rw [show joinChunks [p] = p from rfl]
    exact splitChars_of_noDN p (hp p (by simp)).1
  | case3 p q rest ih =>
    intro _ hp
    show splitChars (joinChunks (p :: q :: rest)) = p :: q :: rest
    rw [show joinChunks (p :: q :: rest) = p ++ '\n' :: '\n' :: joinChunks (q :: rest) from rfl]
    rw [splitChars_append_sep (joinChunks (q :: rest)) p (hp p (by simp)).1 (hp p (by simp)).2]
    rw [ih (by simp) (fun r hr => hp r (List.mem_cons_of_mem p hr))]

lemma filterMap_eq_self (F : String → Option String) :
    ∀ l : List String, (∀ x ∈ l, F x = some x) → l.filterMap F = l := by
  intro l
  induction l with
  | nil => intro _; rfl
  | cons a t ih =>
    intro h
    rw [List.filterMap_cons, h a (by simp)]
    rw [ih (fun x hx => h x (List.mem_cons_of_mem a hx))]

lemma toList_mk (l : List Char) : (String.mk l).toList = l := rfl

lemma mk_toList (s : String) : String.mk s.toList = s := rfl

lemma mem_bodyParas (body : String) (p : String) (hp : p ∈ bodyParas body) :
    ∃ chunk ∈ splitChars body.toList, stripL chunk ≠ [] ∧ p = String.mk (stripL chunk) := by
  unfold bodyParas at hp
  rcases List.mem_filterMap.mp hp with ⟨chunk, hc, hF⟩
  by_cases h : stripL chunk = []
  · rw [if_pos h] at hF
    cases hF
  · rw [if_neg h] at hF
    injection hF with hF'
    exact ⟨chunk, hc, h, hF'.symm⟩

/-- C7: for every non-empty body, the split-trim-filter operation is
idempotent: joining the produced paragraph list with the double-newline
boundary and splitting, trimming and filtering again yields the same
paragraph list. -/
theorem C7_split_idempotent (body : String) (h : body ≠ "") :
    bodyParas (joinParas (bodyParas body)) = bodyParas body := by
  rcases hps : bodyParas body with _ | ⟨p, ps⟩
  · show bodyParas (joinParas []) = []
    rfl
  · have hmem : ∀ q ∈ bodyParas body,
        stripL q.toList = q.toList ∧ q.toList ≠ [] ∧ hasDN q.toList = false := by
      intro q hq
      rcases mem_bodyParas body q hq with ⟨chunk, hc, hne, hq'⟩
      subst hq'
      rw [toList_mk]
      exact ⟨stripL_idem chunk, hne,
        hasDN_stripL chunk (hasDN_of_mem_splitChars body.toList chunk hc)⟩
    rw [hps] at hmem
    unfold joinParas bodyParas
    rw [toList_mk]
    rw [splitChars_joinChunks ((p :: ps).map String.toList) (by simp) ?props]
    case props =>
      intro ql hql
      rcases List.mem_map.mp hql with ⟨q, hq, rfl⟩
      have h3 := hmem q hq
      refine ⟨h3.2.2, ?_⟩
      intro hlast
      rw [← h3.1] at hlast
      have := getLast?_stripL q.toList '\n' hlast
      simp [wsChar] at this
    rw [List.filterMap_map]
    apply filterMap_eq_self
    intro q hq
    have h3 := hmem q hq
    show (if stripL q.toList = [] then none else some (String.mk (stripL q.toList))) = some q
    rw [h3.1, if_neg h3.2.1, mk_toList]

/-- C7 witness: the theorem applied to a concrete body whose chunks carry
surrounding whitespace and an empty chunk. -/
theorem C7_split_idempotent_witness :
    bodyParas (joinParas (bodyParas " A \n\n\n\nB\nC ")) = bodyParas " A \n\n\n\nB\nC " :=
  C7_split_idempotent " A \n\n\n\nB\nC " (by decide)

/-! Support for C9: canonical decompositions for `firstIdx` and `lastIdx`. -/

lemma firstIdx_spec (c : Char) :
    ∀ l : List Char,
      (firstIdx c l = -1 ∧ c ∉ l) ∨
      (∃ p q : List Char, l = p ++ c :: q ∧ c ∉ p ∧ firstIdx c l = (p.length : Int)) := by
  intro l
  induction l with
  | nil => exact Or.inl ⟨rfl, by simp⟩
  | cons x rest ih =>
    by_cases hx : x = c
    · refine Or.inr ⟨[], rest, by simp [hx], by simp, ?_⟩
      simp [firstIdx, hx]
    · rcases ih with ⟨h1, h2⟩ | ⟨p, q, hpq, hcp, hidx⟩
      · refine Or.inl ⟨by simp [firstIdx, hx, h1], ?_⟩
        intro hc
        rcases List.mem_cons.mp hc with h | h
        · exact hx h.symm
        · exact h2 h
      · refine Or.inr ⟨x :: p, q, by simp [hpq], ?_, ?_⟩
        · intro hc
          rcases List.mem_cons.mp hc with h | h
          · exact hx h.symm
          · exact hcp h
        · have hne : firstIdx c rest ≠ -1 := by
            rw [hidx]
            omega
          simp only [firstIdx, if_neg hx, if_neg hne, hidx, List.length_cons]
          push_cast
          ring

lemma lastIdx_spec (c : Char) :
    ∀ l : List Char,
      (lastIdx c l = -1 ∧ c ∉ l) ∨
      (∃ p q : List Char, l = p ++ c :: q ∧ c ∉ q ∧ lastIdx c l = (p.length : Int)) := by
  intro l
  induction l with
  | nil => exact Or.inl ⟨rfl, by simp⟩
  | cons x rest ih =>
    rcases ih with ⟨h1, h2⟩ | ⟨p, q, hpq, hcq, hidx⟩
    · by_cases hx : x = c
      · refine Or.inr ⟨[], rest, by simp [hx], h2, ?_⟩
        simp [lastIdx, h1, hx]
      · refine Or.inl ⟨by simp [lastIdx, h1, hx], ?_⟩
        intro hc
        rcases List.mem_cons.mp hc with h | h
        · exact hx h.symm
        · exact h2 h
    · refine Or.inr ⟨x :: p, q, by simp [hpq], hcq, ?_⟩
      have hne : lastIdx c rest ≠ -1 := by
        rw [hidx]
        omega
      simp only [lastIdx, if_neg hne, hidx, List.length_cons]
      push_cast
      ring

lemma extract_spec_pos (text : String) (a b c : List Char)
    (hdec : text.toList = a ++ '\x7b' :: (b ++ '\x7d' :: c)) :
    ∃ pre mid post : List Char,
      text.toList = pre ++ (mid ++ post) ∧
      extract_json_from_text text = String.mk mid ∧
      (∃ inner : List Char, mid = '\x7b' :: (inner ++ ['\x7d'])) ∧
      '\x7b' ∉ pre ∧ '\x7d' ∉ post := by
  have htext : text ≠ "" := by
    intro h
    rw [h] at hdec
    simp at hdec
  have hbm : '\x7b' ∈ text.toList := by
    rw [hdec]
    simp
  have hcm : '\x7d' ∈ text.toList := by
    rw [hdec]
    simp
  rcases firstIdx_spec '\x7b' text.toList with ⟨_, hno⟩ | ⟨p, q, hpq, hnp, hfst⟩
  · exact absurd hbm hno
  rcases lastIdx_spec '\x7d' text.toList with ⟨_, hno⟩ | ⟨u, w, huw, hnw, hlst⟩
  · exact absurd hcm hno
  have hq : '\x7d' ∈ q := by
    rcases List.append_eq_append_iff.mp (hpq.symm.trans hdec) with ⟨m, hm1, hm2⟩ | ⟨m, hm1, hm2⟩
    · rcases m with _ | ⟨x, m'⟩
      · simp only [List.nil_append] at hm2
        rw [List.cons.injEq] at hm2
        rw [hm2.2]
        simp
      · simp only [List.cons_append, List.cons.injEq] at hm2
        rw [hm2.2]
        simp
    · rcases m with _ | ⟨x, m'⟩
      · simp only [List.nil_append] at hm2
        rw [List.cons.injEq] at hm2
        rw [← hm2.2]
        simp
      · simp only [List.cons_append, List.cons.injEq] at hm2
        exfalso
        apply hnp
        rw [hm1, ← hm2.1]
        simp
  rcases List.append_eq_append_iff.mp (hpq.symm.trans huw) with ⟨m, hm1, hm2⟩ | ⟨m, hm1, hm2⟩
  · rcases m with _ | ⟨x, t⟩
    · simp only [List.nil_append] at hm2
      rw [List.cons.injEq] at hm2
      exact absurd hm2.1 (by decide)
    · simp only [List.cons_append, List.cons.injEq] at hm2
      rcases hm2 with ⟨hx, hqe⟩
      subst hx
      refine ⟨p, '\x7b' :: (t ++ ['\x7d']), w, ?_, ?_, ⟨t, rfl⟩, hnp, hnw⟩
      · rw [hpq, hqe]
        simp
      · have hulen : u.length = p.length + t.length + 1 := by
          rw [hm1]
          simp [List.length_append]
          ring
        rw [extract_json_from_text, if_neg htext]
        rw [hfst, hlst]
        have hcond : ¬((p.length : Int) = -1 ∨ (u.length : Int) = -1 ∨
            (u.length : Int) ≤ (p.length : Int)) := by
          intro hor
          rcases hor with hh | hh | hh <;> omega
        rw [if_neg hcond]
        congr 1
        have hl2 : text.toList = p ++ ('\x7b' :: (t ++ '\x7d' :: w)) := by
          rw [hpq, hqe]
        rw [hl2]
        rw [Int.toNat_natCast, Int.toNat_natCast]
        rw [List.drop_left' rfl]
        have hcount : u.length + 1 - p.length = t.length + 2 := by omega
        rw [hcount]
        have h2 : t.length + 2 = t.length + 1 + 1 := by omega
        rw [h2, List.take_succ_cons]
        have h3 : t.length + 1 = t.length + 1 := rfl
        rw [show List.take (t.length + 1) (t ++ '\x7d' :: w) = t ++ List.take 1 ('\x7d' :: w)
          from List.take_append 1]
        rfl
  · rcases m with _ | ⟨x, m'⟩
    · simp only [List.nil_append] at hm2
      rw [List.cons.injEq] at hm2
      exact absurd hm2.1 (by decide)
    · simp only [List.cons_append, List.cons.injEq] at hm2
      exfalso
      apply hnw
      rw [hm2.2]
      simp [hq]

lemma extract_eq_empty_iff (text : String) :
    extract_json_from_text text = "" ↔
      ¬ ∃ a b c : List Char, text.toList = a ++ '\x7b' :: (b ++ '\x7d' :: c) := by
  constructor
  · intro h hex
    rcases hex with ⟨a, b, c, hdec⟩
    rcases extract_spec_pos text a b c hdec with ⟨pre, mid, post, _, hval, ⟨inner, hmid⟩, _, _⟩
    rw [h] at hval
    have hnil : mid = [] := (mk_eq_empty_iff mid).mp hval.symm
    rw [hmid] at hnil
    cases hnil
  · intro hno
    by_cases htext : text = ""
    · rw [extract_json_from_text, if_pos htext]
    · rw [extract_json_from_text, if_neg htext]
      rcases firstIdx_spec '\x7b' text.toList with ⟨h1, _⟩ | ⟨p, q, hpq, hnp, hfst⟩
      · rw [h1]
        simp
      rcases lastIdx_spec '\x7d' text.toList with ⟨h1, _⟩ | ⟨u, w, huw, hnw, hlst⟩
      · rw [h1]
        simp
      rw [hfst, hlst]
      by_cases hle : (u.length : Int) ≤ (p.length : Int)
      · rw [if_pos (Or.inr (Or.inr hle))]
      · exfalso
        apply hno
        rcases List.append_eq_append_iff.mp (hpq.symm.trans huw) with ⟨m, hm1, hm2⟩ | ⟨m, hm1, hm2⟩
        · rcases m with _ | ⟨x, t⟩
          · exfalso
            apply hle
            rw [hm1]
            simp
          · simp only [List.cons_append, List.cons.injEq] at hm2
            rcases hm2 with ⟨hx, hqe⟩
            subst hx
            exact ⟨p, t, w, by rw [hpq, hqe]⟩
        · exfalso
          apply hle
          rw [hm1]
          simp [List.length_append]

/-- C9: `extract_json_from_text` returns the empty string exactly when no
opening brace occurs strictly before a closing brace (which covers: empty
input, no opening brace, no closing brace, and the last closing brace not
strictly after the first opening brace); otherwise it returns exactly the
contiguous substring from the first opening brace through the last closing
brace inclusive (`pre` holds no opening brace and `post` no closing brace,
so `mid` starts at the first opening and ends at the last closing brace);
and whenever it returns the empty string, `generate_all_sections` raises
the `ValueError`, so the generation request fails before the assembly
runs. -/
theorem C9_extract_json (text : String) :
    (extract_json_from_text text = "" ↔
      ¬ ∃ a b c : List Char, text.toList = a ++ '\x7b' :: (b ++ '\x7d' :: c))
    ∧ ((∃ a b c : List Char, text.toList = a ++ '\x7b' :: (b ++ '\x7d' :: c)) →
        ∃ pre mid post : List Char,
          text.toList = pre ++ (mid ++ post) ∧
          extract_json_from_text text = String.mk mid ∧
          (∃ inner : List Char, mid = '\x7b' :: (inner ++ ['\x7d'])) ∧
          '\x7b' ∉ pre ∧ '\x7d' ∉ post)
    ∧ (extract_json_from_text text = "" →
        generate_all_sections text =
          Except.error "Model did not return valid JSON. Try reducing input text or try again.") := by
  refine ⟨extract_eq_empty_iff text, ?_, ?_⟩
  · rintro ⟨a, b, c, hdec⟩
    exact extract_spec_pos text a b c hdec
  · intro h
    simp [generate_all_sections, h]

/-- C9 witness: the extraction theorem applied to a concrete input with
prose around the braces, and the failure branch applied to an input with
no braces. -/
theorem C9_extract_json_witness :
    (∃ pre mid post : List Char,
      ("x\x7ba\x7dy").toList = pre ++ (mid ++ post) ∧
      extract_json_from_text "x\x7ba\x7dy" = String.mk mid ∧
      (∃ inner : List Char, mid = '\x7b' :: (inner ++ ['\x7d'])) ∧
      '\x7b' ∉ pre ∧ '\x7d' ∉ post)
    ∧ generate_all_sections "no json here" =
        Except.error "Model did not return valid JSON. Try reducing input text or try again." :=
  ⟨(C9_extract_json "x\x7ba\x7dy").2.1 ⟨['x'], ['a'], ['y'], by decide⟩,
   (C9_extract_json "no json here").2.2 (by decide)⟩

/-- C8 counterexample: in the source the date paragraph comes from
`date.today().isoformat()` evaluated inside `generate_design_doc_bytes`
(line 178) and the content map from the LLM call made inside it (line 170);
it is not a field of any explicit metadata input.  Two invocations with
identical explicit inputs (project name, version, prepared-by, and the same
content-map result) but different wall-clock readings therefore produce
different visible structures, refuting the claim that the date is only an
explicit metadata field and that the function performs no internal
effects. -/
theorem C8_purity_counterexample :
    generate_design_doc_bytes "2025-01-01" [] "P" "1.0" "A" ≠
      generate_design_doc_bytes "2025-01-02" [] "P" "1.0" "A" := by decide

/-- C8 amended: once the results of the two internal effects are fixed —
the wall-clock date string read on line 178 and the content map returned by
the internal LLM call on line 170 — the visible structure is a
deterministic pure function of those values and the explicit inputs: it
equals the title block built from them followed by the fixed-catalog
sections, and the date paragraph is the fourth item,
`"Date: " ++ today`. -/
theorem C8_determinism_given_effects (today pn v pb : String) (M : ContentMap) :
    generate_design_doc_bytes today M pn v pb =
      [DocItem.heading "Solution Design Document" 0,
       DocItem.paragraph ("Project Name: " ++ pn),
       DocItem.paragraph ("Version: " ++ v),
       DocItem.paragraph ("Date: " ++ today),
       DocItem.paragraph ("Prepared By: " ++ pb),
       DocItem.pageBreak] ++ assembleSections M SECTIONS
    ∧ (generate_design_doc_bytes today M pn v pb).get? 3 =
        some (DocItem.paragraph ("Date: " ++ today)) := by
  exact ⟨rfl, rfl⟩
